import Mathlib

/-!
Verification development for the medical-report parsing pipeline of `app.py`:
the recursive sanitizer `clean_json` and the section parser
`parse_medical_report` (with its helpers `clean_line` and
`parse_bold_entities`), embedded shallowly over `List Char`.

Python strings are modelled as `String` / `List Char`; Python dicts as
insertion-ordered association lists with last-wins value update on duplicate
keys (the semantics of CPython dict assignment); Python regex scans are
modelled by hand-rolled scanners that implement the exact leftmost,
greedy/lazy and lookahead semantics of the patterns appearing in the source.
-/

/-- Whitespace set used by Python's `str.strip()` and by `\s` in the `re`
module (Unicode whitespace; the source text is ASCII apart from a few
typographic characters, none of which are whitespace). -/
def isPyWS (c : Char) : Bool :=
  c == ' ' || c == '\t' || c == '\n' || c == '\r' || c == '\x0b' || c == '\x0c' ||
  c == '\x1c' || c == '\x1d' || c == '\x1e' || c == '\x1f' || c == '\x85' || c == '\xa0' ||
  c == '\u1680' || c == '\u2000' || c == '\u2001' || c == '\u2002' || c == '\u2003' ||
  c == '\u2004' || c == '\u2005' || c == '\u2006' || c == '\u2007' || c == '\u2008' ||
  c == '\u2009' || c == '\u200a' || c == '\u2028' || c == '\u2029' || c == '\u202f' ||
  c == '\u205f' || c == '\u3000'

/-- The border set of `text.strip(" -\n\t\r")` in `clean_json`. -/
def isBorder (c : Char) : Bool :=
  c == ' ' || c == '-' || c == '\n' || c == '\t' || c == '\r'

/-- Drop a maximal trailing run of characters satisfying `p`
(the right half of Python's `str.strip`). -/
def dropTrailing (p : Char → Bool) : List Char → List Char
  | [] => []
  | c :: cs =>
    if (dropTrailing p cs).isEmpty then (if p c then [] else [c])
    else c :: dropTrailing p cs

/-- Python's `str.strip(chars)`: drop leading and trailing runs of
characters satisfying `p`. -/
def pstrip (p : Char → Bool) (l : List Char) : List Char :=
  dropTrailing p (l.dropWhile p)

/-- State machine for `re.sub(r"-{3,}", "", s)`: `n` counts the pending run
of consecutive dashes; a pending run is emitted only if shorter than 3. -/
def rdAux : Nat → List Char → List Char
  | n, [] => if 3 ≤ n then [] else List.replicate n '-'
  | n, c :: cs =>
    if c = '-' then rdAux (n + 1) cs
    else (if 3 ≤ n then [] else List.replicate n '-') ++ c :: rdAux 0 cs

/-- Model of `re.sub(r"-{3,}", "", s)`: every maximal run of 3 or more
dashes is deleted, shorter runs are kept. -/
def removeDashes (l : List Char) : List Char := rdAux 0 l

/-- State machine for `re.sub(r"\s+", " ", s)`: the flag records a pending
whitespace run, emitted as a single space before the next character. -/
def cwAux : Bool → List Char → List Char
  | pending, [] => if pending then [' '] else []
  | pending, c :: cs =>
    if isPyWS c then cwAux true cs
    else (if pending then [' '] else []) ++ c :: cwAux false cs

/-- Model of `re.sub(r"\s+", " ", s)`: every maximal whitespace run is
replaced by one space. -/
def collapseWS (l : List Char) : List Char := cwAux false l

/-- String branch of `clean_json`:
`text = re.sub(r"-{3,}", "", data); text = re.sub(r"\s+", " ", text);
text = text.strip(" -\n\t\r")`. -/
def cleanStr (s : String) : String :=
  ⟨pstrip isBorder (collapseWS (removeDashes s.data))⟩

/-- JSON-like values flowing through `clean_json`: strings, ordered lists,
ordered mappings (Python dicts), and the other scalars (numbers, booleans,
None) that the function passes through unchanged. -/
inductive Json where
  | str (s : String)
  | num (n : Int)
  | bool (b : Bool)
  | null
  | list (xs : List Json)
  | obj (kvs : List (String × Json))
deriving Repr

/-- Python truthiness on the modelled values (`if i and clean_json(i)`). -/
def truthy : Json → Bool
  | .str s => !s.isEmpty
  | .num n => !(n == 0)
  | .bool b => b
  | .null => false
  | .list xs => !xs.isEmpty
  | .obj kvs => !kvs.isEmpty

/-- CPython dict assignment `m[k] = v` on an insertion-ordered association
list: if `k` is present its value is updated in place, otherwise the pair
is appended. -/
def insertKV {α : Type} (m : List (String × α)) (k : String) (v : α) :
    List (String × α) :=
  if m.any (fun p => p.1 = k) then
    m.map (fun p => if p.1 = k then (k, v) else p)
  else m ++ [(k, v)]

mutual

/-- The sanitizer `clean_json` of `app.py`: strings are dash/whitespace
normalized, lists drop elements that are falsy (before or after cleaning),
dict keys are whitespace-stripped and values cleaned, and all other
scalars pass through unchanged. -/
def clean_json : Json → Json
  | .str s => .str (cleanStr s)
  | .list xs => .list (cleanList xs)
  | .obj kvs => .obj (cleanObj kvs [])
  | .num n => .num n
  | .bool b => .bool b
  | .null => .null

/-- List branch: `[clean_json(i) for i in data if i and clean_json(i)]`. -/
def cleanList : List Json → List Json
  | [] => []
  | i :: rest =>
    if truthy i && truthy (clean_json i) then clean_json i :: cleanList rest
    else cleanList rest

/-- Dict branch: `{k.strip(): clean_json(v) for k, v in data.items()}`,
built left to right with dict-assignment semantics. -/
def cleanObj : List (String × Json) → List (String × Json) → List (String × Json)
  | [], acc => acc
  | (k, v) :: rest, acc =>
    cleanObj rest (insertKV acc ⟨pstrip isPyWS k.data⟩ (clean_json v))

end

example : cleanStr "  ---- Normal range ---  " = "Normal range" := by decide

/-! ## The parser `parse_medical_report` and its helpers -/

/-- Bullet glyph class `[\-\*•]` of `clean_line`. -/
def isBullet (c : Char) : Bool :=
  c == '-' || c == '*' || c == '•'

/-- State machine for `re.sub(r"[\-\*•]+\s*", "", line)`: a maximal run
of bullet glyphs together with the whitespace run following it is removed,
anywhere in the line; the flag records that the previous removed character
may still absorb following whitespace. -/
def bsAux : Bool → List Char → List Char
  | _, [] => []
  | skip, c :: cs =>
    if isBullet c then bsAux true cs
    else if skip && isPyWS c then bsAux true cs
    else c :: bsAux false cs

/-- Model of `re.sub(r"[\-\*•]+\s*", "", l)`. -/
def bulletSub (l : List Char) : List Char := bsAux false l

/-- The helper `clean_line` of `parse_medical_report`:
`re.sub(r"[\-\*•]+\s*", "", line.strip())`. -/
def cleanLineL (l : List Char) : List Char := bulletSub (pstrip isPyWS l)

/-- String-level wrapper of `clean_line`. -/
def clean_line (s : String) : String := ⟨cleanLineL s.data⟩

/-- Line-break set of Python's `str.splitlines()`. -/
def isLineBreak (c : Char) : Bool :=
  c == '\n' || c == '\r' || c == '\x0b' || c == '\x0c' || c == '\x1c' ||
  c == '\x1d' || c == '\x1e' || c == '\x85' || c == '\u2028' || c == '\u2029'

/-- Fueled model of `str.splitlines()` (`\r\n` counts as one break, a
terminal break adds no empty final line). Each step consumes at least the
break character, so fuel `length + 1` never runs out. -/
def splitLinesF : Nat → List Char → List (List Char)
  | 0, _ => []
  | _ + 1, [] => []
  | fuel + 1, c :: cs =>
    let line := (c :: cs).takeWhile (fun d => !isLineBreak d)
    let rest := (c :: cs).dropWhile (fun d => !isLineBreak d)
    match rest with
    | [] => [line]
    | '\r' :: '\n' :: r => line :: splitLinesF fuel r
    | _ :: r => line :: splitLinesF fuel r

/-- Model of `str.splitlines()`. -/
def splitLinesL (l : List Char) : List (List Char) := splitLinesF (l.length + 1) l

/-- Shared list-block extraction
`[clean_line(s) for s in block.splitlines() if clean_line(s)]` used for
`interaction_alerts` and `key_strengths`. -/
def listBlock (b : List Char) : List String :=
  (((splitLinesL b).map cleanLineL).filter (fun l => !l.isEmpty)).map
    (fun l => (⟨l⟩ : String))

/-- One attempt of the pattern `\d+\.\s*(.*?)\n` at a position starting with
a digit: a maximal digit run, a literal dot, then greedy `\s*` followed by
the lazy capture up to a literal newline.  When no newline follows the
whitespace run, the greedy `\s*` backtracks to just before the last newline
inside the run and the capture is empty. -/
def numTry (l : List Char) : Option (List Char × List Char) :=
  let ds := l.takeWhile (fun c => c.isDigit)
  let after := l.dropWhile (fun c => c.isDigit)
  if ds.isEmpty then none
  else
    match after with
    | '.' :: t =>
      let w := t.takeWhile isPyWS
      let u := t.dropWhile isPyWS
      if u.any (fun c => c == '\n') then
        some (u.takeWhile (fun c => c != '\n'), (u.dropWhile (fun c => c != '\n')).tail)
      else if w.any (fun c => c == '\n') then
        some ([], (w.reverse.takeWhile (fun c => c != '\n')).reverse ++ u)
      else none
    | _ => none

/-- Fueled scan of `re.findall(r"\d+\.\s*(.*?)\n", block)`: leftmost,
non-overlapping matches.  Every successful match consumes at least two
characters and every failure advances one, so fuel `length + 1` suffices. -/
def numScanF : Nat → List Char → List (List Char)
  | 0, _ => []
  | _ + 1, [] => []
  | fuel + 1, c :: cs =>
    if c.isDigit then
      match numTry (c :: cs) with
      | some (cap, rest) => cap :: numScanF fuel rest
      | none => numScanF fuel cs
    else numScanF fuel cs

/-- Model of `re.findall(r"\d+\.\s*(.*?)\n", block)`. -/
def numScan (l : List Char) : List (List Char) := numScanF (l.length + 1) l

/-- Locate the first `**` and split: `some (before, after)` where `before`
is everything up to the stars and `after` everything past them. -/
def findStars : List Char → Option (List Char × List Char)
  | [] => none
  | '*' :: '*' :: rest => some ([], rest)
  | c :: cs => (findStars cs).map (fun p => (c :: p.1, p.2))

/-- Test whether the suffix starts with the two-character marker `**`. -/
def starts2Star : List Char → Bool
  | '*' :: '*' :: _ => true
  | _ => false

/-- Test whether the suffix starts with `###`. -/
def starts3Hash : List Char → Bool
  | '#' :: '#' :: '#' :: _ => true
  | _ => false

/-- Lazy value run `(.*?)(?=\*\*|###|$)` with `re.S`: shortest span ending
at the next `**`, the next `###`, the end of the text, or — because `$`
without `re.M` also matches just before a final newline — directly before a
newline that ends the text.  Returns the captured span and the unconsumed
suffix at the lookahead position. -/
def boldVal : List Char → List Char × List Char
  | [] => ([], [])
  | c :: cs =>
    if starts2Star (c :: cs) || starts3Hash (c :: cs) then ([], c :: cs)
    else if c = '\n' ∧ cs = [] then ([], [c])
    else
      let p := boldVal cs
      (c :: p.1, p.2)

/-- Fueled scan of `re.finditer(r"\*\*(.*?)\*\*(.*?)(?=\*\*|###|$)", block, re.S)`:
raw `(group1, group2)` pairs in match order.  A successful match consumes at
least four characters; a failed start advances one. -/
def boldScanF : Nat → List Char → List (List Char × List Char)
  | 0, _ => []
  | _ + 1, [] => []
  | fuel + 1, '*' :: '*' :: rest =>
    (match findStars rest with
     | some (g1, afterKey) =>
       let p := boldVal afterKey
       (g1, p.1) :: boldScanF fuel p.2
     | none => boldScanF fuel ('*' :: rest))
  | fuel + 1, _ :: cs => boldScanF fuel cs

/-- Model of the `finditer` loop in `parse_bold_entities`. -/
def boldScan (l : List Char) : List (List Char × List Char) :=
  boldScanF (l.length + 1) l

/-- The helper `parse_bold_entities` of `parse_medical_report`: for each
match, `key = group(1).strip().strip(":")`,
`val = re.sub(r"\s+", " ", group(2).strip().replace("\n", " "))`, and
entries with an empty key are discarded; the dict is built with
assignment semantics. -/
def parse_bold_entities_data (b : List Char) : List (String × String) :=
  (boldScan b).foldl
    (fun m p =>
      let key := pstrip (fun c => c == ':') (pstrip isPyWS p.1)
      let v := collapseWS ((pstrip isPyWS p.2).map (fun c => if c = '\n' then ' ' else c))
      if key.isEmpty then m else insertKV m ⟨key⟩ ⟨v⟩)
    []

/-- String-level wrapper of `parse_bold_entities`. -/
def parse_bold_entities (s : String) : List (String × String) :=
  parse_bold_entities_data s.data

/-- Split at the first colon: `some (before, after)` if one exists. -/
def splitAtColon : List Char → Option (List Char × List Char)
  | [] => none
  | c :: cs =>
    if c = ':' then some ([], cs)
    else (splitAtColon cs).map (fun p => (c :: p.1, p.2))

/-- Content of a regex group preceded by a greedy `\s*`: the greedy run
takes all leading whitespace, except that when the whole span is
whitespace it backtracks to leave the last character for the
one-or-more group. -/
def pyGroupWS (g : List Char) : List Char :=
  match g.dropWhile isPyWS with
  | [] => g.getLast?.toList
  | d :: ds => d :: ds

/-- The tail `\s*([^\n]+)` of the key-value pattern, applied after the
colon: greedy whitespace, then a nonempty run of non-newline characters;
when everything to the end is whitespace the greedy run backtracks to the
last non-newline whitespace character.  Returns `(group2, rest after the
match)`. -/
def kvVal (l : List Char) : Option (List Char × List Char) :=
  let u := l.dropWhile isPyWS
  if u.isEmpty then
    match l.reverse.dropWhile (fun c => c == '\n') with
    | [] => none
    | c :: _ => some ([c], (l.reverse.takeWhile (fun c => c == '\n')).reverse)
  else
    some (u.takeWhile (fun c => c != '\n'), u.dropWhile (fun c => c != '\n'))

/-- One attempt of `-\s*([^:]+):\s*([^\n]+)` just after a `-`: group 1 is
the nonempty colon-free run up to the first colon (which may span
newlines), group 2 as in `kvVal`. -/
def kvTry (l : List Char) : Option ((List Char × List Char) × List Char) :=
  match splitAtColon l with
  | none => none
  | some (g1, afterColon) =>
    if g1.isEmpty then none
    else
      match kvVal afterColon with
      | none => none
      | some (g2, rest) => some ((pyGroupWS g1, g2), rest)

/-- Fueled scan of `re.findall(r"-\s*([^:]+):\s*([^\n]+)", block)`. -/
def kvScanF : Nat → List Char → List (List Char × List Char)
  | 0, _ => []
  | _ + 1, [] => []
  | fuel + 1, c :: cs =>
    if c = '-' then
      match kvTry cs with
      | some (g, rest) => g :: kvScanF fuel rest
      | none => kvScanF fuel cs
    else kvScanF fuel cs

/-- Model of the normal-ranges `findall`. -/
def kvScan (l : List Char) : List (List Char × List Char) :=
  kvScanF (l.length + 1) l

/-- Raw five-cell pipe row as captured by the table pattern. -/
structure RawRow where
  c1 : List Char
  c2 : List Char
  c3 : List Char
  c4 : List Char
  c5 : List Char
deriving Repr, DecidableEq

/-- Read one cell: the characters up to the next `|`, and the suffix after
that pipe; fails when no pipe remains. -/
def takeCell : List Char → Option (List Char × List Char)
  | [] => none
  | c :: cs =>
    if c = '|' then some ([], cs)
    else (takeCell cs).map (fun p => (c :: p.1, p.2))

/-- One attempt of the row pattern
`\|\s*([^|]+)\s*\|…\|\s*([^|]+)\s*\|` just after an opening pipe: five
consecutive nonempty pipe-free spans, each group taken after its greedy
leading `\s*`. -/
def rowTry (l : List Char) : Option (RawRow × List Char) :=
  (takeCell l).bind fun p1 =>
  if p1.1.isEmpty then none else
  (takeCell p1.2).bind fun p2 =>
  if p2.1.isEmpty then none else
  (takeCell p2.2).bind fun p3 =>
  if p3.1.isEmpty then none else
  (takeCell p3.2).bind fun p4 =>
  if p4.1.isEmpty then none else
  (takeCell p4.2).bind fun p5 =>
  if p5.1.isEmpty then none else
  some (⟨pyGroupWS p1.1, pyGroupWS p2.1, pyGroupWS p3.1,
         pyGroupWS p4.1, pyGroupWS p5.1⟩, p5.2)

/-- Fueled scan of `re.findall(table_pattern, table_block)`: leftmost
non-overlapping five-cell rows (the pattern is a global scan, so rows may
span line breaks). -/
def tableScanF : Nat → List Char → List RawRow
  | 0, _ => []
  | _ + 1, [] => []
  | fuel + 1, c :: cs =>
    if c = '|' then
      match rowTry cs with
      | some (row, rest) => row :: tableScanF fuel rest
      | none => tableScanF fuel cs
    else tableScanF fuel cs

/-- Model of the table `findall`. -/
def tableScan (l : List Char) : List RawRow := tableScanF (l.length + 1) l

/-- One row of `biomarker_table`. -/
structure BiomarkerRow where
  biomarker : String
  value : String
  status : String
  insight : String
  reference_range : String
deriving Repr, DecidableEq

/-- Python `s.strip()` on a cell, packaged as a `String`. -/
def stripCell (l : List Char) : String := ⟨pstrip isPyWS l⟩

/-- Test of `re.search(r"[A-Za-z0-9]", s)`: the cell contains an ASCII
alphanumeric character (negation of `is_separator_cell`). -/
def hasAlnum (s : String) : Bool := s.data.any (fun c => c.isAlphanum)

/-- The row loop of the Tabular Mapping section: strip all five cells,
skip the row when all five are empty, skip it when every cell lacks an
alphanumeric character, otherwise append it. -/
def emitRows : List RawRow → List BiomarkerRow
  | [] => []
  | r :: rest =>
    let b : BiomarkerRow :=
      ⟨stripCell r.c1, stripCell r.c2, stripCell r.c3, stripCell r.c4, stripCell r.c5⟩
    if b.biomarker = "" ∧ b.value = "" ∧ b.status = "" ∧ b.insight = "" ∧
        b.reference_range = "" then
      emitRows rest
    else if hasAlnum b.biomarker = false ∧ hasAlnum b.value = false ∧
        hasAlnum b.status = false ∧ hasAlnum b.insight = false ∧
        hasAlnum b.reference_range = false then
      emitRows rest
    else b :: emitRows rest

/-- Case-insensitive literal match (Python `re.I` on an ASCII literal):
consume `lit` from the front of the input, returning the rest. -/
def matchCI : List Char → List Char → Option (List Char)
  | [], rest => some rest
  | _ :: _, [] => none
  | a :: al, c :: cl => if a.toLower = c.toLower then matchCI al cl else none

/-- Case-sensitive literal match (no `re.I`), used for `**Key Strengths:**`. -/
def matchLit : List Char → List Char → Option (List Char)
  | [], rest => some rest
  | _ :: _, [] => none
  | a :: al, c :: cl => if a = c then matchLit al cl else none

/-- Leftmost occurrence of a case-sensitive literal; returns the suffix
after it (`re.search(r"\*\*Key Strengths:\*\*(.*)", block, re.S)` then
captures exactly that suffix, since `(.*)` with `re.S` is greedy to the
end). -/
def findLit (lit : List Char) : List Char → Option (List Char)
  | [] => matchLit lit []
  | c :: cs =>
    match matchLit lit (c :: cs) with
    | some r => some r
    | none => findLit lit cs

/-- Heading literal `Executive Summary` (case-insensitive). -/
def execLit (l : List Char) : Option (List Char) :=
  matchCI "Executive Summary".data l

/-- Heading literal `System[- ]Specific Analysis` (case-insensitive, the
middle character class accepts a hyphen or a space). -/
def sysLit (l : List Char) : Option (List Char) :=
  match matchCI "System".data l with
  | none => none
  | some r =>
    match r with
    | c :: rest =>
      if c = '-' ∨ c = ' ' then matchCI "Specific Analysis".data rest else none
    | [] => none

/-- Heading literal `Personalized Action Plan` (case-insensitive). -/
def planLit (l : List Char) : Option (List Char) :=
  matchCI "Personalized Action Plan".data l

/-- Heading literal `Interaction Alerts` (case-insensitive). -/
def alertsLit (l : List Char) : Option (List Char) :=
  matchCI "Interaction Alerts".data l

/-- Heading literal `Normal Ranges` (case-insensitive). -/
def normalLit (l : List Char) : Option (List Char) :=
  matchCI "Normal Ranges".data l

/-- Heading literal `Tabular Mapping` (case-insensitive). -/
def tabularLit (l : List Char) : Option (List Char) :=
  matchCI "Tabular Mapping".data l

/-- Attempt `###\s*<lit>` at the current position: three hashes, a maximal
whitespace run (the literal starts with a letter, so the greedy `\s*`
needs no backtracking), then the literal. -/
def tryHeading (lit : List Char → Option (List Char)) : List Char → Option (List Char)
  | '#' :: '#' :: '#' :: rest => lit (rest.dropWhile isPyWS)
  | _ => none

/-- Leftmost match of `###\s*<lit>`; returns the suffix after the heading
(where the lazy body capture starts). -/
def findHeading (lit : List Char → Option (List Char)) : List Char → Option (List Char)
  | [] => none
  | c :: cs =>
    match tryHeading lit (c :: cs) with
    | some r => some r
    | none => findHeading lit cs

/-- Lazy section body `(.*?)(?=###|$)` with `re.S` but not `re.M`: the
shortest span ending at the next `###`, at the end of the text, or — the
`$` subtlety — just before a newline that ends the text. -/
def lazyBody : List Char → List Char
  | [] => []
  | c :: cs =>
    if starts3Hash (c :: cs) then []
    else if c = '\n' ∧ cs = [] then []
    else c :: lazyBody cs

/-- Section body for one of the five lazy headings: `none` when the
heading does not occur. -/
def sectionBodyL (lit : List Char → Option (List Char)) (l : List Char) :
    Option (List Char) :=
  (findHeading lit l).map lazyBody

/-- String-level section body extractor. -/
def sectionBody (lit : List Char → Option (List Char)) (s : String) :
    Option String :=
  (sectionBodyL lit s.data).map (fun b => (⟨b⟩ : String))

/-- String-level body of the Tabular Mapping section: `(.*)` greedy with
`re.S`, everything to the very end of the text. -/
def tabularBody (s : String) : Option String :=
  (findHeading tabularLit s.data).map (fun b => (⟨b⟩ : String))

/-- The `executive_summary` record. -/
structure ExecutiveSummary where
  top_priorities : List String
  key_strengths : List String
deriving Repr, DecidableEq

/-- The document assembled by `parse_medical_report`. -/
structure ReportDocument where
  executive_summary : ExecutiveSummary
  system_analysis : List (String × String)
  personalized_action_plan : List (String × String)
  interaction_alerts : List String
  normal_ranges : List (String × String)
  biomarker_table : List BiomarkerRow
deriving Repr, DecidableEq

/-- Executive Summary block: numbered priorities (assigned only when the
list is nonempty, which coincides with the default otherwise) and the
`**Key Strengths:**` tail fed to the list-block extractor. -/
def execSummaryOf (block : List Char) : ExecutiveSummary :=
  let prios := numScan block
  let tp := if prios.isEmpty then [] else prios.map (fun p => (⟨cleanLineL p⟩ : String))
  let ks :=
    match findLit "**Key Strengths:**".data block with
    | none => []
    | some after => listBlock after
  ⟨tp, ks⟩

/-- Normal Ranges block: each `findall` pair is stripped on both sides and
inserted with dict-assignment semantics. -/
def normalRangesOf (block : List Char) : List (String × String) :=
  (kvScan block).foldl
    (fun m p => insertKV m ⟨pstrip isPyWS p.1⟩ ⟨pstrip isPyWS p.2⟩) []

/-- The parser `parse_medical_report` of `app.py`: six independent section
extractions over the input text, each falling back to its default when its
heading is absent. -/
def parse_medical_report (text : String) : ReportDocument :=
  let t := text.data
  { executive_summary :=
      match sectionBodyL execLit t with
      | none => ⟨[], []⟩
      | some block => execSummaryOf block
    system_analysis :=
      match sectionBodyL sysLit t with
      | none => []
      | some block => parse_bold_entities_data block
    personalized_action_plan :=
      match sectionBodyL planLit t with
      | none => []
      | some block => parse_bold_entities_data block
    interaction_alerts :=
      match sectionBodyL alertsLit t with
      | none => []
      | some block => listBlock block
    normal_ranges :=
      match sectionBodyL normalLit t with
      | none => []
      | some block => normalRangesOf block
    biomarker_table :=
      match findHeading tabularLit t with
      | none => []
      | some rest => emitRows (tableScan rest) }

/-! ## Invariants of the sanitized strings -/

/-- Head starts with a dash. -/
def headDash : List Char → Bool
  | c :: _ => c == '-'
  | [] => false

/-- The first two characters are dashes. -/
def dash2 : List Char → Bool
  | a :: rest => a == '-' && headDash rest
  | [] => false

/-- No run of three or more consecutive dashes. -/
def ok3 : List Char → Bool
  | [] => true
  | c :: cs => !(c == '-' && dash2 cs) && ok3 cs

/-- Head is a whitespace character. -/
def headWS : List Char → Bool
  | c :: _ => isPyWS c
  | [] => false

/-- Whitespace-normal form: every whitespace character is a plain space
not followed by further whitespace. -/
def wsNorm : List Char → Bool
  | [] => true
  | c :: cs => (!isPyWS c || (c == ' ' && !headWS cs)) && wsNorm cs

/-- No two adjacent whitespace characters (no whitespace run longer than
one character). -/
def noWS2 : List Char → Bool
  | [] => true
  | c :: cs => !(isPyWS c && headWS cs) && noWS2 cs

/-- Neither end of the string is a character of the border set. -/
def noBorderEnds (l : List Char) : Bool :=
  (match l.head? with | some c => !isBorder c | none => true) &&
  (match l.getLast? with | some c => !isBorder c | none => true)

theorem ok3_cons {c : Char} {cs : List Char} (h : ok3 (c :: cs) = true) :
    ok3 cs = true := by
  simp only [ok3, Bool.and_eq_true] at h
  exact h.2

theorem ok3_cons_not {c : Char} {cs : List Char} (h : ok3 (c :: cs) = true) :
    ¬(c = '-' ∧ dash2 cs = true) := by
  rintro ⟨rfl, h2⟩
  simp [ok3, h2] at h

theorem ok3_of_parts {c : Char} {cs : List Char}
    (h1 : ¬(c = '-' ∧ dash2 cs = true)) (h2 : ok3 cs = true) :
    ok3 (c :: cs) = true := by
  simp only [ok3, Bool.and_eq_true, Bool.not_eq_true']
  refine ⟨?_, h2⟩
  by_cases hc : c = '-'
  · subst hc
    cases hd : dash2 cs with
    | true => exact absurd ⟨rfl, hd⟩ h1
    | false => simp
  · simp [hc]

theorem wsNorm_cons {c : Char} {cs : List Char} (h : wsNorm (c :: cs) = true) :
    wsNorm cs = true := by
  simp only [wsNorm, Bool.and_eq_true] at h
  exact h.2

theorem wsNorm_cons_head {c : Char} {cs : List Char} (h : wsNorm (c :: cs) = true)
    (hc : isPyWS c = true) : c = ' ' ∧ headWS cs = false := by
  simp only [wsNorm, Bool.and_eq_true, Bool.or_eq_true, Bool.not_eq_true'] at h
  rcases h.1 with h1 | h1
  · rw [hc] at h1; cases h1
  · simp only [Bool.and_eq_true, beq_iff_eq, Bool.not_eq_true'] at h1
    exact h1

theorem wsNorm_of_parts {c : Char} {cs : List Char}
    (h1 : isPyWS c = true → c = ' ' ∧ headWS cs = false)
    (h2 : wsNorm cs = true) : wsNorm (c :: cs) = true := by
  simp only [wsNorm, Bool.and_eq_true, Bool.or_eq_true, Bool.not_eq_true']
  refine ⟨?_, h2⟩
  cases hc : isPyWS c with
  | false => exact Or.inl rfl
  | true =>
    rcases h1 hc with ⟨rfl, hw⟩
    exact Or.inr (by simp [hw])

theorem noWS2_of_wsNorm : ∀ {l : List Char}, wsNorm l = true → noWS2 l = true
  | [], _ => rfl
  | c :: cs, h => by
    have ht := wsNorm_cons h
    simp only [noWS2, Bool.and_eq_true, Bool.not_eq_true']
    refine ⟨?_, noWS2_of_wsNorm ht⟩
    cases hc : isPyWS c with
    | false => simp
    | true =>
      rcases wsNorm_cons_head h hc with ⟨_, hw⟩
      simp [hw]

theorem ok3_append_right : ∀ {a b : List Char}, ok3 (a ++ b) = true → ok3 b = true
  | [], _, h => h
  | _ :: a, _, h => ok3_append_right (a := a) (ok3_cons h)

theorem ok3_dropWhile (p : Char → Bool) :
    ∀ {l : List Char}, ok3 l = true → ok3 (l.dropWhile p) = true
  | [], h => h
  | c :: cs, h => by
    rw [List.dropWhile]
    cases p c with
    | true => exact ok3_dropWhile p (ok3_cons h)
    | false => exact h

theorem wsNorm_dropWhile (p : Char → Bool) :
    ∀ {l : List Char}, wsNorm l = true → wsNorm (l.dropWhile p) = true
  | [], h => h
  | c :: cs, h => by
    rw [List.dropWhile]
    cases p c with
    | true => exact wsNorm_dropWhile p (wsNorm_cons h)
    | false => exact h

theorem dropWhile_head_false (p : Char → Bool) :
    ∀ {l : List Char} {x : Char} {r : List Char},
      l.dropWhile p = x :: r → p x = false
  | [], x, r, h => by simp [List.dropWhile] at h
  | c :: cs, x, r, h => by
    rw [List.dropWhile] at h
    cases hp : p c with
    | true => rw [hp] at h; exact dropWhile_head_false p h
    | false => rw [hp] at h; cases h; exact hp

theorem dropWhile_id_of_head (p : Char → Bool) {l : List Char}
    (h : ∀ x r, l = x :: r → p x = false) : l.dropWhile p = l := by
  cases l with
  | nil => rfl
  | cons c cs => rw [List.dropWhile, h c cs rfl]

/-! ### Lemmas about `dropTrailing` -/

theorem dropTrailing_head (p : Char → Bool) :
    ∀ {l : List Char} {x : Char} {r : List Char},
      dropTrailing p l = x :: r → ∃ t, l = x :: t
  | [], x, r, h => by simp [dropTrailing] at h
  | c :: cs, x, r, h => by
    rw [dropTrailing] at h
    split at h
    · split at h
      · simp at h
      · cases h; exact ⟨cs, rfl⟩
    · cases h; exact ⟨cs, rfl⟩

/-- Auxiliary shape fact: a nonempty `dropTrailing` output is the head of
the input followed by either nothing or `dropTrailing` of the tail. -/
theorem dropTrailing_cons_shape (p : Char → Bool) {c : Char} {cs : List Char}
    {x : Char} {r : List Char} (h : dropTrailing p (c :: cs) = x :: r) :
    x = c ∧ (r = [] ∨ r = dropTrailing p cs) := by
  rw [dropTrailing] at h
  split at h
  · split at h
    · simp at h
    · cases h; exact ⟨rfl, Or.inl rfl⟩
  · cases h; exact ⟨rfl, Or.inr rfl⟩

theorem dropTrailing_last (p : Char → Bool) :
    ∀ {l : List Char} {x : Char},
      (dropTrailing p l).getLast? = some x → p x = false
  | [], x, h => by simp [dropTrailing] at h
  | c :: cs, x, h => by
    rw [dropTrailing] at h
    split at h
    · split at h
      next hp => simp at h
      next hp =>
        simp only [List.getLast?_singleton, Option.some_inj] at h
        subst h
        simpa using hp
    · next hr =>
      rcases hdt : dropTrailing p cs with _ | ⟨y, t⟩
      · rw [hdt] at hr; simp at hr
      · rw [hdt, List.getLast?_cons_cons] at h
        exact dropTrailing_last p (by rw [hdt]; exact h)

theorem dropTrailing_id (p : Char → Bool) :
    ∀ {l : List Char}, (∀ x, l.getLast? = some x → p x = false) →
      dropTrailing p l = l
  | [], _ => rfl
  | c :: cs, h => by
    rw [dropTrailing]
    cases cs with
    | nil =>
      have := h c (by simp)
      simp [dropTrailing, this]
    | cons d ds =>
      have hcs : dropTrailing p (d :: ds) = d :: ds :=
        dropTrailing_id p (fun x hx => h x (by rw [List.getLast?_cons_cons]; exact hx))
      rw [hcs]
      simp

theorem ok3_dropTrailing (p : Char → Bool) :
    ∀ {l : List Char}, ok3 l = true → ok3 (dropTrailing p l) = true
  | [], h => h
  | c :: cs, h => by
    rw [dropTrailing]
    split
    · split
      · simp [ok3]
      · simp [ok3, dash2]
    · refine ok3_of_parts ?_ (ok3_dropTrailing p (ok3_cons h))
      rintro ⟨rfl, hd⟩
      refine ok3_cons_not h ⟨rfl, ?_⟩
      rcases hdt : dropTrailing p cs with _ | ⟨y, t⟩
      · rw [hdt] at hd; simp [dash2] at hd
      · rw [hdt] at hd
        rcases dropTrailing_head p hdt with ⟨u, rfl⟩
        simp only [dash2, Bool.and_eq_true] at hd ⊢
        refine ⟨hd.1, ?_⟩
        cases t with
        | nil => simp [headDash] at hd
        | cons z zs =>
          rcases dropTrailing_cons_shape p hdt with ⟨_, hshape⟩
          rcases hshape with hnil | hrec
          · simp at hnil
          · rcases dropTrailing_head p hrec.symm with ⟨w, rfl⟩
            simp only [headDash] at hd ⊢
            exact hd.2

theorem wsNorm_dropTrailing (p : Char → Bool) :
    ∀ {l : List Char}, wsNorm l = true → wsNorm (dropTrailing p l) = true
  | [], h => h
  | c :: cs, h => by
    rw [dropTrailing]
    split
    · split
      · simp [wsNorm]
      · refine wsNorm_of_parts (fun hc => ?_) rfl
        exact ⟨(wsNorm_cons_head h hc).1, rfl⟩
    · refine wsNorm_of_parts (fun hc => ?_) (wsNorm_dropTrailing p (wsNorm_cons h))
      rcases wsNorm_cons_head h hc with ⟨hsp, hw⟩
      refine ⟨hsp, ?_⟩
      rcases hdt : dropTrailing p cs with _ | ⟨y, t⟩
      · rfl
      · rcases dropTrailing_head p hdt with ⟨u, rfl⟩
        simp only [headWS] at hw ⊢
        exact hw

/-! ### Lemmas about `pstrip` -/

theorem pstrip_head_false (p : Char → Bool) {l : List Char} {x : Char}
    {r : List Char} (h : pstrip p l = x :: r) : p x = false := by
  rcases dropTrailing_head p h with ⟨t, ht⟩
  exact dropWhile_head_false p ht

theorem pstrip_last_false (p : Char → Bool) {l : List Char} {x : Char}
    (h : (pstrip p l).getLast? = some x) : p x = false :=
  dropTrailing_last p h

theorem pstrip_id (p : Char → Bool) {l : List Char}
    (h1 : ∀ x r, l = x :: r → p x = false)
    (h2 : ∀ x, l.getLast? = some x → p x = false) : pstrip p l = l := by
  unfold pstrip
  rw [dropWhile_id_of_head p h1]
  exact dropTrailing_id p h2

theorem pstrip_idem (p : Char → Bool) (l : List Char) :
    pstrip p (pstrip p l) = pstrip p l := by
  refine pstrip_id p (fun x r h => ?_) (fun x h => pstrip_last_false p h)
  exact pstrip_head_false p h

theorem ok3_pstrip (p : Char → Bool) {l : List Char} (h : ok3 l = true) :
    ok3 (pstrip p l) = true :=
  ok3_dropTrailing p (ok3_dropWhile p h)

theorem wsNorm_pstrip (p : Char → Bool) {l : List Char} (h : wsNorm l = true) :
    wsNorm (pstrip p l) = true :=
  wsNorm_dropTrailing p (wsNorm_dropWhile p h)

theorem noBorderEnds_pstrip (l : List Char) :
    noBorderEnds (pstrip isBorder l) = true := by
  simp only [noBorderEnds, Bool.and_eq_true]
  constructor
  · rcases h : pstrip isBorder l with _ | ⟨x, r⟩
    · rfl
    · simp [pstrip_head_false isBorder h]
  · rcases h : (pstrip isBorder l).getLast? with _ | x
    · rfl
    · simp [pstrip_last_false isBorder h]

/-! ### Invariants of `removeDashes` -/

theorem dash2_cons_false {c : Char} {R : List Char} (hc : ¬c = '-') :
    dash2 (c :: R) = false := by
  simp [dash2, hc]

theorem headDash_cons_false {c : Char} {R : List Char} (hc : ¬c = '-') :
    headDash (c :: R) = false := by
  simp [headDash, hc]

theorem ok3_emit (n : Nat) :
    ok3 (if 3 ≤ n then [] else List.replicate n '-') = true := by
  split
  · rfl
  · next h =>
    have h3 : n < 3 := by omega
    interval_cases n <;> decide

theorem ok3_emit_cons {n : Nat} {c : Char} {R : List Char} (hc : ¬c = '-')
    (hR : ok3 R = true) :
    ok3 ((if 3 ≤ n then [] else List.replicate n '-') ++ c :: R) = true := by
  have hbase : ok3 (c :: R) = true := ok3_of_parts (fun h => hc h.1) hR
  split
  · simpa using hbase
  · next h =>
    have h3 : n < 3 := by omega
    interval_cases n
    · simpa using hbase
    · simp only [List.replicate, List.cons_append, List.nil_append]
      refine ok3_of_parts ?_ hbase
      rintro ⟨-, hd⟩
      rw [dash2_cons_false hc] at hd
      cases hd
    · simp only [List.replicate, List.cons_append, List.nil_append]
      refine ok3_of_parts ?_ (ok3_of_parts ?_ hbase)
      · rintro ⟨-, hd⟩
        simp only [dash2, headDash, Bool.and_eq_true, beq_iff_eq] at hd
        exact hc hd.2
      · rintro ⟨-, hd⟩
        rw [dash2_cons_false hc] at hd
        cases hd

theorem rdAux_ok3 : ∀ (l : List Char) (n : Nat), ok3 (rdAux n l) = true
  | [], n => by rw [rdAux]; exact ok3_emit n
  | c :: cs, n => by
    rw [rdAux]
    split
    · exact rdAux_ok3 cs (n + 1)
    · next hc => exact ok3_emit_cons hc (rdAux_ok3 cs 0)

theorem replicate_snoc (n : Nat) (a : Char) (t : List Char) :
    List.replicate n a ++ a :: t = List.replicate (n + 1) a ++ t := by
  rw [List.replicate_succ']
  simp

theorem rdAux_id : ∀ (l : List Char) (n : Nat), n ≤ 2 →
    ok3 (List.replicate n '-' ++ l) = true →
    rdAux n l = List.replicate n '-' ++ l
  | [], n, hn, _ => by
    rw [rdAux, if_neg (by omega)]
    simp
  | c :: cs, n, hn, h => by
    rw [rdAux]
    split
    · next hc =>
      subst hc
      have hn1 : n ≤ 1 := by
        by_contra hgt
        have hn2 : n = 2 := by omega
        subst hn2
        simp [List.replicate, ok3, dash2, headDash] at h
      have hrw : List.replicate n '-' ++ '-' :: cs = List.replicate (n + 1) '-' ++ cs :=
        replicate_snoc n '-' cs
      rw [hrw] at h
      rw [rdAux_id cs (n + 1) (by omega) h, hrw]
    · next hc =>
      rw [if_neg (by omega)]
      have hcs : ok3 cs = true := ok3_cons (ok3_append_right h)
      rw [rdAux_id cs 0 (by omega) (by simpa using hcs)]
      simp

/-! ### Invariants of `collapseWS` -/

theorem cwAux_true_head : ∀ (l : List Char), ∃ t, cwAux true l = ' ' :: t
  | [] => ⟨[], rfl⟩
  | c :: cs => by
    rw [cwAux]
    split
    · exact cwAux_true_head cs
    · exact ⟨c :: cwAux false cs, by simp⟩

theorem cwAux_wsNorm : ∀ (l : List Char) (pending : Bool),
    wsNorm (cwAux pending l) = true
  | [], pending => by
    rw [cwAux]
    cases pending
    · rfl
    · decide
  | c :: cs, pending => by
    rw [cwAux]
    split
    · exact cwAux_wsNorm cs true
    · next hws =>
      have hws' : isPyWS c = false := by simpa using hws
      have htail : wsNorm (c :: cwAux false cs) = true := by
        refine wsNorm_of_parts (fun hc => ?_) (cwAux_wsNorm cs false)
        rw [hws'] at hc; cases hc
      cases pending
      · simpa using htail
      · simp only [if_true]
        refine wsNorm_of_parts (fun _ => ⟨rfl, ?_⟩) (by simpa using htail)
        simp [headWS, hws']

theorem cwAux_id : ∀ (l : List Char), wsNorm l = true →
    cwAux false l = l ∧ (headWS l = false → cwAux true l = ' ' :: l)
  | [], _ => ⟨rfl, fun _ => rfl⟩
  | c :: cs, h => by
    constructor
    · rw [cwAux]
      split
      · next hws =>
        rcases wsNorm_cons_head h hws with ⟨rfl, hw⟩
        exact (cwAux_id cs (wsNorm_cons h)).2 hw
      · simp [(cwAux_id cs (wsNorm_cons h)).1]
    · intro hh
      rw [cwAux]
      split
      · next hws => simp [headWS, hws] at hh
      · simp [(cwAux_id cs (wsNorm_cons h)).1]

theorem cwAux_headDash : ∀ (t : List Char),
    headDash (cwAux false t) = true → headDash t = true
  | [], h => by simpa [cwAux] using h
  | b :: u, h => by
    rw [cwAux] at h
    split at h
    · rcases cwAux_true_head u with ⟨w, hw⟩
      rw [hw] at h
      simp [headDash] at h
    · simpa [headDash] using h

theorem cwAux_dash2 : ∀ (cs : List Char),
    dash2 (cwAux false cs) = true → dash2 cs = true
  | [], h => by simpa [cwAux] using h
  | a :: t, h => by
    rw [cwAux] at h
    split at h
    · rcases cwAux_true_head t with ⟨w, hw⟩
      rw [hw] at h
      simp [dash2] at h
    · have h' : dash2 (a :: cwAux false t) = true := h
      simp only [dash2, Bool.and_eq_true] at h' ⊢
      exact ⟨h'.1, cwAux_headDash t h'.2⟩

theorem cwAux_ok3 : ∀ (l : List Char) (pending : Bool), ok3 l = true →
    ok3 (cwAux pending l) = true
  | [], pending, _ => by
    rw [cwAux]
    cases pending
    · rfl
    · decide
  | c :: cs, pending, h => by
    rw [cwAux]
    split
    · exact cwAux_ok3 cs true (ok3_cons h)
    · have htail : ok3 (c :: cwAux false cs) = true := by
        refine ok3_of_parts ?_ (cwAux_ok3 cs false (ok3_cons h))
        rintro ⟨rfl, hd⟩
        exact ok3_cons_not h ⟨rfl, cwAux_dash2 cs hd⟩
      cases pending
      · simpa using htail
      · simp only [if_true]
        refine ok3_of_parts ?_ (by simpa using htail)
        rintro ⟨hsp, -⟩
        cases hsp

/-! ### The sanitized-string invariants and idempotence of `cleanStr` -/

theorem noBorderEnds_head {l : List Char} (h : noBorderEnds l = true) :
    ∀ x r, l = x :: r → isBorder x = false := by
  intro x r hl
  subst hl
  simp only [noBorderEnds, Bool.and_eq_true, List.head?_cons] at h
  simpa using h.1

theorem noBorderEnds_last {l : List Char} (h : noBorderEnds l = true) :
    ∀ x, l.getLast? = some x → isBorder x = false := by
  intro x hx
  simp only [noBorderEnds, Bool.and_eq_true, hx] at h
  simpa using h.2

theorem cleanStr_ok3 (s : String) : ok3 (cleanStr s).data = true :=
  ok3_pstrip _ (cwAux_ok3 _ false (rdAux_ok3 _ 0))

theorem cleanStr_wsNorm (s : String) : wsNorm (cleanStr s).data = true :=
  wsNorm_pstrip _ (cwAux_wsNorm _ false)

theorem cleanStr_noBorderEnds (s : String) : noBorderEnds (cleanStr s).data = true :=
  noBorderEnds_pstrip _

theorem cleanStr_idem (s : String) : cleanStr (cleanStr s) = cleanStr s := by
  have hok := cleanStr_ok3 s
  have hws := cleanStr_wsNorm s
  have hb := cleanStr_noBorderEnds s
  show (⟨pstrip isBorder (cwAux false (rdAux 0 (cleanStr s).data))⟩ : String) = cleanStr s
  have h1 : rdAux 0 (cleanStr s).data = (cleanStr s).data := by
    have := rdAux_id (cleanStr s).data 0 (by omega) (by simpa using hok)
    simpa using this
  have h2 := (cwAux_id (cleanStr s).data hws).1
  have h3 : pstrip isBorder (cleanStr s).data = (cleanStr s).data :=
    pstrip_id isBorder (noBorderEnds_head hb) (noBorderEnds_last hb)
  rw [h1, h2, h3]

/-! ### Structural machinery for `clean_json` -/

/-- Strong induction principle for the nested inductive `Json`. -/
def Json.indStrong {P : Json → Prop}
    (hstr : ∀ s, P (.str s))
    (hnum : ∀ n, P (.num n))
    (hbool : ∀ b, P (.bool b))
    (hnull : P .null)
    (hlist : ∀ xs, (∀ x, x ∈ xs → P x) → P (.list xs))
    (hobj : ∀ kvs, (∀ kv, kv ∈ kvs → P kv.2) → P (.obj kvs)) :
    ∀ d, P d
  | .str s => hstr s
  | .num n => hnum n
  | .bool b => hbool b
  | .null => hnull
  | .list xs =>
    hlist xs (fun x hx =>
      Json.indStrong hstr hnum hbool hnull hlist hobj x)
  | .obj kvs =>
    hobj kvs (fun kv hkv =>
      Json.indStrong hstr hnum hbool hnull hlist hobj kv.2)
termination_by d => sizeOf d
decreasing_by
  · have h1 := List.sizeOf_lt_of_mem hx
    simp only [Json.list.sizeOf_spec]
    omega
  · have h1 := List.sizeOf_lt_of_mem hkv
    have h2 : sizeOf kv.2 < sizeOf kv := by
      cases kv
      simp only [Prod.mk.sizeOf_spec]
      omega
    simp only [Json.obj.sizeOf_spec]
    omega

theorem insertKV_keys_present {α : Type} {m : List (String × α)} {k : String}
    {v : α} (h : m.any (fun p => p.1 = k) = true) :
    (insertKV m k v).map Prod.fst = m.map Prod.fst := by
  rw [insertKV, if_pos h, List.map_map]
  apply List.map_congr_left
  intro p _
  by_cases hpk : p.1 = k
  · simp [Function.comp, hpk]
  · simp [Function.comp, hpk]

theorem insertKV_keys_absent {α : Type} {m : List (String × α)} {k : String}
    {v : α} (h : m.any (fun p => p.1 = k) = false) :
    insertKV m k v = m ++ [(k, v)] := by
  rw [insertKV, if_neg]
  simp [h]

theorem insertKV_key_mem {α : Type} (m : List (String × α)) (k : String) (v : α) :
    k ∈ (insertKV m k v).map Prod.fst := by
  cases hany : m.any (fun p => p.1 = k) with
  | true =>
    rw [insertKV_keys_present hany]
    rcases List.any_eq_true.mp hany with ⟨p, hp, hpk⟩
    simp only [decide_eq_true_eq] at hpk
    exact hpk ▸ List.mem_map_of_mem Prod.fst hp
  | false =>
    rw [insertKV_keys_absent hany]
    simp

theorem insertKV_keys_superset {α : Type} {m : List (String × α)} (k : String)
    (v : α) {q : String} (h : q ∈ m.map Prod.fst) :
    q ∈ (insertKV m k v).map Prod.fst := by
  cases hany : m.any (fun p => p.1 = k) with
  | true => rw [insertKV_keys_present hany]; exact h
  | false =>
    rw [insertKV_keys_absent hany, List.map_append, List.mem_append]
    exact Or.inl h

theorem insertKV_mem_keys {α : Type} {m : List (String × α)} {k : String}
    {v : α} {q : String} (h : q ∈ (insertKV m k v).map Prod.fst) :
    q ∈ m.map Prod.fst ∨ q = k := by
  cases hany : m.any (fun p => p.1 = k) with
  | true => rw [insertKV_keys_present hany] at h; exact Or.inl h
  | false =>
    rw [insertKV_keys_absent hany, List.map_append, List.mem_append] at h
    rcases h with h | h
    · exact Or.inl h
    · simp at h
      exact Or.inr h

theorem insertKV_nodup {α : Type} {m : List (String × α)} {k : String} {v : α}
    (h : (m.map Prod.fst).Nodup) : ((insertKV m k v).map Prod.fst).Nodup := by
  cases hany : m.any (fun p => p.1 = k) with
  | true => rw [insertKV_keys_present hany]; exact h
  | false =>
    rw [insertKV_keys_absent hany, List.map_append]
    simp only [List.map_cons, List.map_nil]
    rw [List.nodup_append]
    refine ⟨h, List.nodup_singleton _, ?_⟩
    intro a ha hb
    simp only [List.mem_singleton] at hb
    subst hb
    rcases List.mem_map.mp ha with ⟨p, hp, hpk⟩
    have hall := List.any_eq_false.mp hany p hp
    simp only [decide_eq_true_eq] at hall
    exact hall (by simpa using hpk)

theorem insertKV_val_mem {α : Type} {m : List (String × α)} {k : String} {v : α}
    {x : α} (h : x ∈ (insertKV m k v).map Prod.snd) :
    x ∈ m.map Prod.snd ∨ x = v := by
  rw [insertKV] at h
  split at h
  · rcases List.mem_map.mp h with ⟨q, hq, hqx⟩
    rcases List.mem_map.mp hq with ⟨p, hp, hpq⟩
    by_cases hpk : p.1 = k
    · rw [if_pos hpk] at hpq
      subst hpq
      exact Or.inr hqx.symm
    · rw [if_neg hpk] at hpq
      subst hpq
      exact Or.inl (hqx ▸ List.mem_map_of_mem Prod.snd hp)
  · rw [List.map_append, List.mem_append] at h
    rcases h with h | h
    · exact Or.inl h
    · simp at h
      exact Or.inr h

theorem cleanObj_nodup : ∀ (l : List (String × Json)) (acc : List (String × Json)),
    (acc.map Prod.fst).Nodup → ((cleanObj l acc).map Prod.fst).Nodup
  | [], _, h => h
  | (_, _) :: rest, _, h => cleanObj_nodup rest _ (insertKV_nodup h)

theorem cleanObj_keys_superset :
    ∀ (l : List (String × Json)) (acc : List (String × Json)) {q : String},
      q ∈ acc.map Prod.fst → q ∈ (cleanObj l acc).map Prod.fst
  | [], _, _, h => h
  | (_, _) :: rest, _, _, h =>
    cleanObj_keys_superset rest _ (insertKV_keys_superset _ _ h)

theorem cleanObj_key_mem :
    ∀ (l : List (String × Json)) (acc : List (String × Json)) (kv : String × Json),
      kv ∈ l → (⟨pstrip isPyWS kv.1.data⟩ : String) ∈ (cleanObj l acc).map Prod.fst
  | [], _, kv, h => absurd h (List.not_mem_nil kv)
  | (k, v) :: rest, acc, kv, h => by
    rcases List.mem_cons.mp h with heq | hmem
    · subst heq
      exact cleanObj_keys_superset rest _ (insertKV_key_mem acc _ _)
    · exact cleanObj_key_mem rest _ kv hmem

theorem cleanObj_keys_stripped :
    ∀ (l : List (String × Json)) (acc : List (String × Json)),
      (∀ q ∈ acc.map Prod.fst, pstrip isPyWS q.data = q.data) →
      ∀ q ∈ (cleanObj l acc).map Prod.fst, pstrip isPyWS q.data = q.data
  | [], _, hacc, q, hq => hacc q hq
  | (k, v) :: rest, acc, hacc, q, hq => by
    refine cleanObj_keys_stripped rest _ (fun q0 hq0 => ?_) q hq
    rcases insertKV_mem_keys hq0 with h1 | h2
    · exact hacc q0 h1
    · subst h2
      exact pstrip_idem isPyWS k.data

theorem cleanObj_vals :
    ∀ (l : List (String × Json)) (acc : List (String × Json)) (q : String × Json),
      q ∈ cleanObj l acc →
      q.2 ∈ acc.map Prod.snd ∨ ∃ kv ∈ l, q.2 = clean_json kv.2
  | [], _, q, h => Or.inl (List.mem_map_of_mem Prod.snd h)
  | (k, v) :: rest, acc, q, h => by
    rcases cleanObj_vals rest _ q h with hin | ⟨kv, hkv, hq⟩
    · rcases insertKV_val_mem hin with h1 | h2
      · exact Or.inl h1
      · exact Or.inr ⟨(k, v), List.mem_cons_self _ _, h2⟩
    · exact Or.inr ⟨kv, List.mem_cons_of_mem _ hkv, hq⟩

theorem cleanObj_append :
    ∀ (l : List (String × Json)) (acc : List (String × Json)),
      (((acc ++ l).map Prod.fst).Nodup) →
      (∀ kv ∈ l, (⟨pstrip isPyWS kv.1.data⟩ : String) = kv.1 ∧
        clean_json kv.2 = kv.2) →
      cleanObj l acc = acc ++ l
  | [], acc, _, _ => by simp [cleanObj]
  | (k, v) :: rest, acc, hnd, hfix => by
    have hk := (hfix (k, v) (List.mem_cons_self _ _)).1
    have hv := (hfix (k, v) (List.mem_cons_self _ _)).2
    have hknot : acc.any (fun p => p.1 = k) = false := by
      rw [List.any_eq_false]
      intro p hp
      simp only [decide_eq_true_eq]
      intro hpk
      have hmem1 : k ∈ acc.map Prod.fst := hpk ▸ List.mem_map_of_mem Prod.fst hp
      have hmem2 : k ∈ ((k, v) :: rest).map Prod.fst := by simp
      rw [List.map_append, List.nodup_append] at hnd
      exact hnd.2.2 hmem1 hmem2
    have hstep : insertKV acc (⟨pstrip isPyWS k.data⟩ : String) (clean_json v) =
        acc ++ [(k, v)] := by
      rw [hk, hv]
      exact insertKV_keys_absent hknot
    show cleanObj rest (insertKV acc (⟨pstrip isPyWS k.data⟩ : String) (clean_json v)) =
        acc ++ (k, v) :: rest
    rw [hstep]
    rw [cleanObj_append rest (acc ++ [(k, v)])
      (by
        have : (acc ++ [(k, v)]) ++ rest = acc ++ (k, v) :: rest := by simp
        rw [this]
        exact hnd)
      (fun kv hkv => hfix kv (List.mem_cons_of_mem _ hkv))]
    simp

theorem truthy_clean : ∀ i : Json, truthy (clean_json i) = true → truthy i = true := by
  intro i h
  cases i with
  | str s =>
    cases hs : s.isEmpty with
    | false => simp [truthy, hs]
    | true =>
      have hempty : s = "" := (String.isEmpty_iff s).mp hs
      subst hempty
      exact absurd h (by decide)
  | num n =>
    exact h
  | bool b => exact h
  | null => exact h
  | list xs =>
    cases xs with
    | nil => exact absurd h (by decide)
    | cons x t => rfl
  | obj kvs =>
    cases kvs with
    | nil => exact absurd h (by decide)
    | cons kv t => rfl

theorem cleanList_filter : ∀ xs : List Json,
    cleanList xs = (xs.filter (fun i => truthy (clean_json i))).map clean_json
  | [] => rfl
  | i :: rest => by
    have hrec := cleanList_filter rest
    show (if truthy i && truthy (clean_json i) then
        clean_json i :: cleanList rest else cleanList rest) = _
    rw [List.filter_cons]
    cases hc : truthy (clean_json i) with
    | true =>
      rw [truthy_clean i hc]
      simp [hc, hrec]
    | false =>
      simp [hc, hrec]

theorem cleanList_mem {xs : List Json} {x : Json} (h : x ∈ cleanList xs) :
    ∃ i ∈ xs, x = clean_json i := by
  rw [cleanList_filter] at h
  rcases List.mem_map.mp h with ⟨i, hi, rfl⟩
  exact ⟨i, List.mem_of_mem_filter hi, rfl⟩

theorem cleanList_idem : ∀ xs : List Json,
    (∀ i ∈ xs, clean_json (clean_json i) = clean_json i) →
    cleanList (cleanList xs) = cleanList xs
  | [], _ => rfl
  | i :: rest, h => by
    have hi := h i (List.mem_cons_self _ _)
    have hrest := cleanList_idem rest (fun j hj => h j (List.mem_cons_of_mem _ hj))
    have hstep : cleanList (i :: rest) =
        if truthy i && truthy (clean_json i) then
          clean_json i :: cleanList rest
        else cleanList rest := rfl
    rw [hstep]
    by_cases hc : (truthy i && truthy (clean_json i)) = true
    · have hparts : truthy i = true ∧ truthy (clean_json i) = true := by
        simpa using hc
      rw [if_pos hc]
      have hstep2 : cleanList (clean_json i :: cleanList rest) =
          if truthy (clean_json i) && truthy (clean_json (clean_json i)) then
            clean_json (clean_json i) :: cleanList (cleanList rest)
          else cleanList (cleanList rest) := rfl
      rw [hstep2, hi, hparts.2]
      simp [hrest]
    · rw [if_neg hc]
      exact hrest

theorem clean_json_idempotent : ∀ d : Json, clean_json (clean_json d) = clean_json d := by
  refine Json.indStrong ?_ (fun _ => rfl) (fun _ => rfl) rfl ?_ ?_
  · intro s
    show Json.str (cleanStr (cleanStr s)) = Json.str (cleanStr s)
    rw [cleanStr_idem]
  · intro xs ih
    show Json.list (cleanList (cleanList xs)) = Json.list (cleanList xs)
    rw [cleanList_idem xs ih]
  · intro kvs ih
    show Json.obj (cleanObj (cleanObj kvs []) []) = Json.obj (cleanObj kvs [])
    rw [cleanObj_append (cleanObj kvs []) []
      (by simpa using cleanObj_nodup kvs [] (by simp))
      (fun kv hkv => by
        constructor
        · have hks := cleanObj_keys_stripped kvs [] (by simp) kv.1
            (List.mem_map_of_mem Prod.fst hkv)
          calc (⟨pstrip isPyWS kv.1.data⟩ : String) = ⟨kv.1.data⟩ := by rw [hks]
            _ = kv.1 := rfl
        · rcases cleanObj_vals kvs [] kv hkv with hin | ⟨kv0, hkv0, hq⟩
          · simp at hin
          · rw [hq, ih kv0 hkv0])]
    simp

/-! ### Every string value of a sanitized document is normalized -/

mutual

/-- All string leaves of a value (mapping keys excluded) satisfy `P`. -/
def allStrVals (P : String → Bool) : Json → Bool
  | .str s => P s
  | .list xs => allStrValsList P xs
  | .obj kvs => allStrValsObj P kvs
  | .num _ => true
  | .bool _ => true
  | .null => true

/-- List version of `allStrVals`. -/
def allStrValsList (P : String → Bool) : List Json → Bool
  | [] => true
  | x :: xs => allStrVals P x && allStrValsList P xs

/-- Mapping version of `allStrVals` (checks the values only). -/
def allStrValsObj (P : String → Bool) : List (String × Json) → Bool
  | [] => true
  | kv :: kvs => allStrVals P kv.2 && allStrValsObj P kvs

end

theorem allStrValsList_iff {P : String → Bool} : ∀ {xs : List Json},
    allStrValsList P xs = true ↔ ∀ x ∈ xs, allStrVals P x = true
  | [] => by simp [allStrValsList]
  | x :: xs => by
    show (allStrVals P x && allStrValsList P xs) = true ↔ _
    rw [Bool.and_eq_true, allStrValsList_iff]
    simp

theorem allStrValsObj_iff {P : String → Bool} : ∀ {kvs : List (String × Json)},
    allStrValsObj P kvs = true ↔ ∀ kv ∈ kvs, allStrVals P kv.2 = true
  | [] => by simp [allStrValsObj]
  | kv :: kvs => by
    show (allStrVals P kv.2 && allStrValsObj P kvs) = true ↔ _
    rw [Bool.and_eq_true, allStrValsObj_iff]
    simp

/-- Normal form of a sanitized string: no run of three or more dashes, no
two adjacent whitespace characters, and no border character at either
end. -/
def cleanOK (s : String) : Bool :=
  ok3 s.data && noWS2 s.data && noBorderEnds s.data

theorem cleanOK_cleanStr (s : String) : cleanOK (cleanStr s) = true := by
  simp only [cleanOK, Bool.and_eq_true]
  exact ⟨⟨cleanStr_ok3 s, noWS2_of_wsNorm (cleanStr_wsNorm s)⟩,
    cleanStr_noBorderEnds s⟩

theorem clean_json_strings :
    ∀ d : Json, allStrVals cleanOK (clean_json d) = true := by
  refine Json.indStrong ?_ (fun _ => rfl) (fun _ => rfl) rfl ?_ ?_
  · intro s
    exact cleanOK_cleanStr s
  · intro xs ih
    show allStrValsList cleanOK (cleanList xs) = true
    rw [allStrValsList_iff]
    intro x hx
    rcases cleanList_mem hx with ⟨i, hi, rfl⟩
    exact ih i hi
  · intro kvs ih
    show allStrValsObj cleanOK (cleanObj kvs []) = true
    rw [allStrValsObj_iff]
    intro kv hkv
    rcases cleanObj_vals kvs [] kv hkv with hin | ⟨kv0, hkv0, hq⟩
    · simp at hin
    · rw [hq]
      exact ih kv0 hkv0

/-! ### General facts about the scanners -/

theorem mem_of_mem_takeWhileC {α : Type} {p : α → Bool} :
    ∀ {l : List α} {x : α}, x ∈ l.takeWhile p → x ∈ l
  | [], _, h => by simp [List.takeWhile] at h
  | c :: cs, x, h => by
    rw [List.takeWhile_cons] at h
    split at h
    · rcases List.mem_cons.mp h with rfl | h
      · exact List.mem_cons_self _ _
      · exact List.mem_cons_of_mem _ (mem_of_mem_takeWhileC h)
    · simp at h

theorem mem_of_mem_dropWhileC {α : Type} {p : α → Bool} :
    ∀ {l : List α} {x : α}, x ∈ l.dropWhile p → x ∈ l
  | [], _, h => by simp [List.dropWhile] at h
  | c :: cs, x, h => by
    rw [List.dropWhile_cons] at h
    split at h
    · exact List.mem_cons_of_mem _ (mem_of_mem_dropWhileC h)
    · exact h

/-- A numbered-item match always consumes a literal newline: on newline-free
input `numTry` fails. -/
theorem numTry_none {l : List Char} (h : ('\n' : Char) ∉ l) : numTry l = none := by
  simp only [numTry]
  split
  · rfl
  · split
    · next t heq =>
      have htl : ∀ x, x ∈ t → x ∈ l := by
        intro x hx
        exact mem_of_mem_dropWhileC (p := fun c => c.isDigit)
          (heq ▸ List.mem_cons_of_mem _ hx)
      have h1 : ((t.dropWhile isPyWS).any (fun c => c == '\n')) = false := by
        rw [List.any_eq_false]
        intro x hx
        simp only [beq_iff_eq]
        intro hxe
        subst hxe
        exact h (htl _ (mem_of_mem_dropWhileC hx))
      have h2 : ((t.takeWhile isPyWS).any (fun c => c == '\n')) = false := by
        rw [List.any_eq_false]
        intro x hx
        simp only [beq_iff_eq]
        intro hxe
        subst hxe
        exact h (htl _ (mem_of_mem_takeWhileC hx))
      rw [if_neg (by simp [h1]), if_neg (by simp [h2])]
    · rfl

theorem numScanF_nil : ∀ (fuel : Nat) (l : List Char), ('\n' : Char) ∉ l →
    numScanF fuel l = []
  | 0, _, _ => rfl
  | _ + 1, [], _ => rfl
  | fuel + 1, c :: cs, h => by
    have h' : ('\n' : Char) ∉ cs := fun hc => h (List.mem_cons_of_mem _ hc)
    have hstep : numScanF (fuel + 1) (c :: cs) =
        if c.isDigit then
          (match numTry (c :: cs) with
           | some (cap, rest) => cap :: numScanF fuel rest
           | none => numScanF fuel cs)
        else numScanF fuel cs := rfl
    rw [hstep, numTry_none h]
    split
    · exact numScanF_nil fuel cs h'
    · exact numScanF_nil fuel cs h'

/-- The stripped row built from a raw five-cell match. -/
def rowOf (r : RawRow) : BiomarkerRow :=
  ⟨stripCell r.c1, stripCell r.c2, stripCell r.c3, stripCell r.c4, stripCell r.c5⟩

/-- Drop condition (a) of the claim: all five trimmed cells are empty. -/
def rowAllEmpty (b : BiomarkerRow) : Bool :=
  b.biomarker == "" && b.value == "" && b.status == "" && b.insight == "" &&
    b.reference_range == ""

/-- Drop condition (b) of the claim: every cell lacks an alphanumeric
character. -/
def rowAllSep (b : BiomarkerRow) : Bool :=
  !hasAlnum b.biomarker && !hasAlnum b.value && !hasAlnum b.status &&
    !hasAlnum b.insight && !hasAlnum b.reference_range

theorem emitRows_filter : ∀ rs : List RawRow,
    emitRows rs = (rs.map rowOf).filter (fun b => !rowAllEmpty b && !rowAllSep b)
  | [] => rfl
  | r :: rest => by
    have hrec := emitRows_filter rest
    have hstep : emitRows (r :: rest) =
        if (rowOf r).biomarker = "" ∧ (rowOf r).value = "" ∧ (rowOf r).status = "" ∧
            (rowOf r).insight = "" ∧ (rowOf r).reference_range = "" then
          emitRows rest
        else if hasAlnum (rowOf r).biomarker = false ∧ hasAlnum (rowOf r).value = false ∧
            hasAlnum (rowOf r).status = false ∧ hasAlnum (rowOf r).insight = false ∧
            hasAlnum (rowOf r).reference_range = false then
          emitRows rest
        else rowOf r :: emitRows rest := rfl
    rw [hstep, List.map_cons, List.filter_cons]
    by_cases h1 : (rowOf r).biomarker = "" ∧ (rowOf r).value = "" ∧ (rowOf r).status = "" ∧
        (rowOf r).insight = "" ∧ (rowOf r).reference_range = ""
    · rw [if_pos h1]
      have hb : (!rowAllEmpty (rowOf r) && !rowAllSep (rowOf r)) = false := by
        have he : rowAllEmpty (rowOf r) = true := by
          simp [rowAllEmpty, h1.1, h1.2.1, h1.2.2.1, h1.2.2.2.1, h1.2.2.2.2]
        simp [he]
      rw [hb]
      simpa using hrec
    · rw [if_neg h1]
      by_cases h2 : hasAlnum (rowOf r).biomarker = false ∧ hasAlnum (rowOf r).value = false ∧
          hasAlnum (rowOf r).status = false ∧ hasAlnum (rowOf r).insight = false ∧
          hasAlnum (rowOf r).reference_range = false
      · rw [if_pos h2]
        have hb : (!rowAllEmpty (rowOf r) && !rowAllSep (rowOf r)) = false := by
          have hs : rowAllSep (rowOf r) = true := by
            simp [rowAllSep, h2.1, h2.2.1, h2.2.2.1, h2.2.2.2.1, h2.2.2.2.2]
          simp [hs]
        rw [hb]
        simpa using hrec
      · rw [if_neg h2]
        have hb : (!rowAllEmpty (rowOf r) && !rowAllSep (rowOf r)) = true := by
          have he : rowAllEmpty (rowOf r) = false := by
            rw [rowAllEmpty]
            by_contra hc
            simp only [Bool.not_eq_false, Bool.and_eq_true, beq_iff_eq] at hc
            exact h1 ⟨hc.1.1.1.1, hc.1.1.1.2, hc.1.1.2, hc.1.2, hc.2⟩
          have hs : rowAllSep (rowOf r) = false := by
            rw [rowAllSep]
            by_contra hc
            simp only [Bool.not_eq_false, Bool.and_eq_true, Bool.not_eq_true'] at hc
            exact h2 ⟨hc.1.1.1.1, hc.1.1.1.2, hc.1.1.2, hc.1.2, hc.2⟩
          simp [he, hs]
        rw [hb]
        simpa using hrec

theorem listBlock_no_empty (b : List Char) : "" ∉ listBlock b := by
  intro h
  rcases List.mem_map.mp h with ⟨l, hl, he⟩
  have hdata : l = [] := congrArg String.data he
  subst hdata
  have := (List.mem_filter.mp hl).2
  simp at this

theorem parse_alerts_no_empty (t : String) :
    "" ∉ (parse_medical_report t).interaction_alerts := by
  show "" ∉ (match sectionBodyL alertsLit t.data with
             | none => []
             | some block => listBlock block)
  cases h : sectionBodyL alertsLit t.data with
  | none => simp
  | some block => exact listBlock_no_empty block

/-! ## Claim theorems -/

/-- C1: the parser is total (a Lean function) and never fails: `parse("")`
returns exactly the default document, and for each of the six sections,
absence of its heading (the section search returning `none`) yields that
field's documented default. -/
theorem claim_C1 :
    parse_medical_report "" = ⟨⟨[], []⟩, [], [], [], [], []⟩ ∧
    (∀ t, sectionBody execLit t = none →
      (parse_medical_report t).executive_summary = ⟨[], []⟩) ∧
    (∀ t, sectionBody sysLit t = none →
      (parse_medical_report t).system_analysis = []) ∧
    (∀ t, sectionBody planLit t = none →
      (parse_medical_report t).personalized_action_plan = []) ∧
    (∀ t, sectionBody alertsLit t = none →
      (parse_medical_report t).interaction_alerts = []) ∧
    (∀ t, sectionBody normalLit t = none →
      (parse_medical_report t).normal_ranges = []) ∧
    (∀ t, tabularBody t = none →
      (parse_medical_report t).biomarker_table = []) := by
  refine ⟨by decide, ?_, ?_, ?_, ?_, ?_, ?_⟩
  · intro t h
    have h' : sectionBodyL execLit t.data = none := by simpa [sectionBody] using h
    show (match sectionBodyL execLit t.data with
          | none => (⟨[], []⟩ : ExecutiveSummary)
          | some block => execSummaryOf block) = ⟨[], []⟩
    rw [h']
  · intro t h
    have h' : sectionBodyL sysLit t.data = none := by simpa [sectionBody] using h
    show (match sectionBodyL sysLit t.data with
          | none => ([] : List (String × String))
          | some block => parse_bold_entities_data block) = []
    rw [h']
  · intro t h
    have h' : sectionBodyL planLit t.data = none := by simpa [sectionBody] using h
    show (match sectionBodyL planLit t.data with
          | none => ([] : List (String × String))
          | some block => parse_bold_entities_data block) = []
    rw [h']
  · intro t h
    have h' : sectionBodyL alertsLit t.data = none := by simpa [sectionBody] using h
    show (match sectionBodyL alertsLit t.data with
          | none => ([] : List String)
          | some block => listBlock block) = []
    rw [h']
  · intro t h
    have h' : sectionBodyL normalLit t.data = none := by simpa [sectionBody] using h
    show (match sectionBodyL normalLit t.data with
          | none => ([] : List (String × String))
          | some block => normalRangesOf block) = []
    rw [h']
  · intro t h
    have h' : findHeading tabularLit t.data = none := by simpa [tabularBody] using h
    show (match findHeading tabularLit t.data with
          | none => ([] : List BiomarkerRow)
          | some rest => emitRows (tableScan rest)) = []
    rw [h']

/-- Witness for C1: on a text with no headings, every field is its default. -/
theorem claim_C1_witness :
    (parse_medical_report "plain text").executive_summary = ⟨[], []⟩ ∧
    (parse_medical_report "plain text").system_analysis = [] ∧
    (parse_medical_report "plain text").personalized_action_plan = [] ∧
    (parse_medical_report "plain text").interaction_alerts = [] ∧
    (parse_medical_report "plain text").normal_ranges = [] ∧
    (parse_medical_report "plain text").biomarker_table = [] :=
  ⟨claim_C1.2.1 "plain text" (by decide),
   claim_C1.2.2.1 "plain text" (by decide),
   claim_C1.2.2.2.1 "plain text" (by decide),
   claim_C1.2.2.2.2.1 "plain text" (by decide),
   claim_C1.2.2.2.2.2.1 "plain text" (by decide),
   claim_C1.2.2.2.2.2.2 "plain text" (by decide)⟩

/-- C2: the sanitizer `clean_json` is idempotent on every value built from
strings, ordered lists, ordered mappings, and other scalars. -/
theorem claim_C2 (d : Json) : clean_json (clean_json d) = clean_json d :=
  clean_json_idempotent d

/-- C3: a matched five-cell row is emitted (all five cells trimmed, rows in
scan order) if and only if it is not the case that all five trimmed cells
are empty and not the case that every cell lacks an alphanumeric
character; in particular the literal markdown header row is emitted as a
data row. -/
theorem claim_C3 :
    (∀ rs : List RawRow,
      emitRows rs = (rs.map rowOf).filter (fun b => !rowAllEmpty b && !rowAllSep b)) ∧
    (parse_medical_report
        "### Tabular Mapping\n| Biomarker | Value | Status | Insight | Reference Range |").biomarker_table =
      [⟨"Biomarker", "Value", "Status", "Insight", "Reference Range"⟩] :=
  ⟨emitRows_filter, by decide⟩

/-- C4: bold-entity extraction on the documented block yields exactly the
ordered mapping with multiline values flattened; a `###` boundary also
terminates a value run and a trailing colon is stripped from the key. -/
theorem claim_C4 :
    parse_bold_entities
        "**Liver**\nStatus: Normal.\nExplanation: fine.\n**Kidney**\nStatus: Normal." =
      [("Liver", "Status: Normal. Explanation: fine."), ("Kidney", "Status: Normal.")] ∧
    parse_bold_entities "**A:**v1 ### junk **B**v2" = [("A", "v1"), ("B", "v2")] :=
  ⟨by decide, by decide⟩

/-- Counterexample for C5: the claim says any non-string/list/mapping
scalar is retained by list sanitization, but the code drops every falsy
element, so `False` (and `0`, `None`) is removed. -/
theorem claim_C5_counterexample :
    clean_json (Json.list [Json.bool false]) ≠ Json.list [Json.bool false] := by
  intro h
  have h2 : (Json.list [] : Json) = Json.list [Json.bool false] := h
  simp at h2

/-- C5 (amended): list sanitization drops exactly the elements that are
falsy after sanitization (empty string, empty list, empty mapping, and
also falsy scalars such as `false`, `0`, `None`); mapping sanitization
never drops a key (its stripped key stays present whatever its value); and
`sanitize(["", "ok", [], {"a": ""}]) = ["ok", {"a": ""}]`. -/
theorem claim_C5 :
    (∀ xs : List Json,
      cleanList xs = (xs.filter (fun i => truthy (clean_json i))).map clean_json) ∧
    (∀ kvs : List (String × Json), ∀ kv ∈ kvs,
      (⟨pstrip isPyWS kv.1.data⟩ : String) ∈ (cleanObj kvs []).map Prod.fst) ∧
    clean_json (.list [.str "", .str "ok", .list [], .obj [("a", .str "")]]) =
      .list [.str "ok", .obj [("a", .str "")]] :=
  ⟨cleanList_filter, fun kvs kv hkv => cleanObj_key_mem kvs [] kv hkv, by rfl⟩

/-- Witness for C5: the key `"a"` survives sanitization of `{"a": ""}`. -/
theorem claim_C5_witness :
    (⟨pstrip isPyWS "a".data⟩ : String) ∈
      (cleanObj [("a", Json.str "")] []).map Prod.fst :=
  claim_C5.2.1 [("a", Json.str "")] ("a", Json.str "") (List.mem_cons_self _ _)

/-- Counterexample for C6: with no following heading, `$` also matches just
before a final newline, so the body of a section at the end of a
newline-terminated text excludes that newline — it is not the substring
up to the end of the text. -/
theorem claim_C6_counterexample :
    sectionBody alertsLit "### Interaction Alerts\nA\n" ≠ some "\nA\n" := by
  decide

/-- C6 (amended): the extracted body is the substring strictly between the
case-insensitively matched heading (with the spelling variant for the
System heading) and the next `###` or the end of the text — except that a
single newline ending the text is excluded when no `###` follows, and the
Tabular Mapping body runs to the very end of the text even past a later
`###`. -/
theorem claim_C6 :
    sectionBody execLit "### Executive Summary\nX\n### Interaction Alerts\nY" =
      some "\nX\n" ∧
    sectionBody alertsLit "### Interaction Alerts\nA\n" = some "\nA" ∧
    sectionBody alertsLit "### Interaction Alerts\nA" = some "\nA" ∧
    sectionBody sysLit "### system specific analysis\nZ" = some "\nZ" ∧
    sectionBody sysLit "### System-Specific Analysis\nZ" = some "\nZ" ∧
    tabularBody "### Tabular Mapping\nT\n### Next\nU\n" = some "\nT\n### Next\nU\n" ∧
    sectionBody normalLit "no sections" = none := by
  refine ⟨?_, ?_, ?_, ?_, ?_, ?_, ?_⟩ <;> decide

/-- Counterexample for C7: the normal-ranges scan is global, not per-line;
the line `x-y: 5` is not of the form `- <key>: <value>` yet contributes the
entry `("y", "5")`, so the mapping is not empty as the claim requires. -/
theorem claim_C7_counterexample :
    (parse_medical_report "### Normal Ranges\nx-y: 5").normal_ranges ≠ [] := by
  decide

/-- C7 (amended): a line `- <key>: <value>` maps to the trimmed pair as
documented ("- Urea (S): 17–43 mg/dL" gives key "Urea (S)" and value
"17–43 mg/dL"), but the scan is global: a dash anywhere starts a match, so
lines not of the bullet shape can still contribute entries. -/
theorem claim_C7 :
    (parse_medical_report "### Normal Ranges\n- Urea (S): 17–43 mg/dL").normal_ranges =
      [("Urea (S)", "17–43 mg/dL")] ∧
    (parse_medical_report "### Normal Ranges\nx-y: 5").normal_ranges = [("y", "5")] :=
  ⟨by decide, by decide⟩

/-- Counterexample for C8: `clean_line` removes bullet glyphs anywhere in
the line, not only leading ones, so the interior hyphen of "well-known" is
deleted. -/
theorem claim_C8_counterexample :
    (parse_medical_report "### Interaction Alerts\nwell-known risk").interaction_alerts ≠
      ["well-known risk"] := by
  decide

/-- C8 (amended): list-block extraction splits the block into lines,
strips each line of surrounding whitespace, removes every run of bullet
glyphs together with any immediately following whitespace anywhere in the
line (so interior hyphens or asterisks are deleted and the pieces joined),
and keeps exactly the lines that remain non-empty, in document order. -/
theorem claim_C8 :
    (parse_medical_report
        "### Interaction Alerts\n- Alpha beta\n\n* Gamma-delta\n• Eps\nplain").interaction_alerts =
      ["Alpha beta", "Gammadelta", "Eps", "plain"] ∧
    (∀ t : String, "" ∉ (parse_medical_report t).interaction_alerts) ∧
    clean_line "well-known" = "wellknown" :=
  ⟨by decide, parse_alerts_no_empty, by decide⟩

/-- C9: in every sanitized document, each string value has no run of 3+
dashes, no two adjacent whitespace characters (hence no whitespace run
longer than one space), and no border character at either end; and
`"  ---- Normal range ---  "` sanitizes to `"Normal range"`.  Mapping keys
are only whitespace-stripped by the code and are not string fields of the
document, so the invariant is about string values. -/
theorem claim_C9 :
    (∀ d : Json, allStrVals cleanOK (clean_json d) = true) ∧
    cleanStr "  ---- Normal range ---  " = "Normal range" :=
  ⟨clean_json_strings, by decide⟩

/-- C10: a numbered item is captured into `top_priorities` only when it is
terminated by a newline inside the block (a block without any newline
yields no priorities at all), and a trailing numbered line with no newline
is omitted while the newline-terminated ones before it are captured in
order. -/
theorem claim_C10 :
    (∀ block : String, ('\n' : Char) ∉ block.data →
      (execSummaryOf block.data).top_priorities = []) ∧
    (execSummaryOf "1. Improve sleep\n2. Reduce sugar\n3. Walk daily".data).top_priorities =
      ["Improve sleep", "Reduce sugar"] := by
  constructor
  · intro block h
    have hnum : numScan block.data = [] := numScanF_nil _ _ h
    show (if (numScan block.data).isEmpty then []
          else (numScan block.data).map (fun p => (⟨cleanLineL p⟩ : String))) = []
    rw [hnum]
    simp
  · decide

/-- Witness for C10: a newline-free numbered line yields no priorities. -/
theorem claim_C10_witness : (execSummaryOf "1. x".data).top_priorities = [] :=
  claim_C10.1 "1. x" (by decide)

example :
    parse_bold_entities
        "**Liver**\nStatus: Normal.\nExplanation: fine.\n**Kidney**\nStatus: Normal." =
      [("Liver", "Status: Normal. Explanation: fine."), ("Kidney", "Status: Normal.")] := by
  decide

example :
    execSummaryOf "1. Improve sleep\n2. Reduce sugar\n".data =
      ⟨["Improve sleep", "Reduce sugar"], []⟩ := by decide

example : sectionBody alertsLit "### Interaction Alerts\nA\n" = some "\nA" := by decide

example :
    (parse_medical_report "### Normal Ranges\nx-y: 5").normal_ranges = [("y", "5")] := by
  decide

example :
    (parse_medical_report
        "### Tabular Mapping\n| Biomarker | Value | Status | Insight | Reference Range |").biomarker_table =
      [⟨"Biomarker", "Value", "Status", "Insight", "Reference Range"⟩] := by decide

example :
    clean_json (.list [.str "", .str "ok", .list [], .obj [("a", .str "")]]) =
      .list [.str "ok", .obj [("a", .str "")]] := by rfl

example : clean_json (.list [.bool false, .num 0, .null]) = .list [] := by rfl
